import Mathlib

/-!
Verification of the silence-cut video API's job queue and interval algebra.

This file shallowly embeds the algorithmic core of the repository:

* `mergeSilences`, `buildKeepSegments`, and the decision logic of
  `removeSilences` from `app/services/video_processing_service.ts`;
* the silence-cap step, the retry classifier, and the job queue operations
  (`addJob`, `processNext`, `cancelJob`, `canAcceptNewJob`) from the
  job queue service.

Floating-point seconds are modelled as rationals (`ℚ`); JavaScript `Map`
and `Set` are modelled as association lists with the set-insert guarded
by membership.  The asynchronous `processNext` is split at its single
suspension region into a synchronous start (`processNextStart`: dequeue,
move to the active set, mark processing) and a finish
(`processNextFinish`: apply the pipeline outcome, release the slot),
which is exactly how the single-threaded JS event loop interleaves it.
-/

namespace SilenceCut

/-- A detected silence interval, after the `SilenceInterval` type of the
source: `start` and `end` timestamps in seconds plus a separately stored
`duration` field.  `end` is a Lean keyword, so that field is named `stop`. -/
structure SilenceInterval where
  start : ℚ
  stop : ℚ
  duration : ℚ
deriving Repr, DecidableEq

/-- A keep segment `{start, end}` as produced by `buildKeepSegments`. -/
structure Segment where
  start : ℚ
  stop : ℚ
deriving Repr, DecidableEq

/-- Consecutive intervals do not overlap: the earlier one ends no later
than the later one starts (intervals are half-open `[start, stop)`). -/
def ovO (a b : SilenceInterval) : Prop := a.stop ≤ b.start

instance : DecidableRel ovO := fun a b => inferInstanceAs (Decidable (a.stop ≤ b.start))

/-- Loop of `mergeSilences` (video_processing_service.ts, lines 100-116):
`current` starts as a copy of the first interval; for each `next`, if the
gap `next.start - current.end` is `< minGap` the code sets
`current.end = next.end` (the `duration` field is not touched), otherwise
it pushes `current` and restarts from `next`; the final `current` is
pushed after the loop. -/
def mergeGo (minGap : ℚ) : SilenceInterval → List SilenceInterval → List SilenceInterval
  | current, [] => [current]
  | current, next :: rest =>
    if next.start - current.stop < minGap then
      mergeGo minGap { current with stop := next.stop } rest
    else
      current :: mergeGo minGap next rest

/-- `mergeSilences` from video_processing_service.ts (lines 96-120):
empty input is returned as is, otherwise the merge loop runs from a copy
of the first interval. -/
def mergeSilences (silences : List SilenceInterval) (minGap : ℚ) : List SilenceInterval :=
  match silences with
  | [] => []
  | first :: rest => mergeGo minGap first rest

/-- Prepend an interval to the first run of a run decomposition (runs are
represented as a head interval paired with the rest of the run). -/
def consHead (a : SilenceInterval) :
    List (SilenceInterval × List SilenceInterval) → List (SilenceInterval × List SilenceInterval)
  | [] => [(a, [])]
  | (h, r) :: runs => (a, h :: r) :: runs

/-- Specification-side decomposition of `a :: rest` into the maximal runs
of consecutive intervals in which each gap `next.start - current.end` is
strictly below `minGap` (the spec's description of `merge`). -/
def specRuns (minGap : ℚ) (a : SilenceInterval) : List SilenceInterval → List (SilenceInterval × List SilenceInterval)
  | [] => [(a, [])]
  | b :: rest =>
    if b.start - a.stop < minGap then consHead a (specRuns minGap b rest)
    else (a, []) :: specRuns minGap b rest

/-- Collapse one run to a single interval: it spans from the start of the
first member to the end of the last member, and carries the `duration`
field of the first member (the merge loop never rewrites `duration`). -/
def collapseRun (p : SilenceInterval × List SilenceInterval) : SilenceInterval :=
  { start := p.1.start, stop := (p.2.getLastD p.1).stop, duration := p.1.duration }

/-- Specification-side merge: split into maximal runs with gaps strictly
below `minGap`, then collapse each run. -/
def mergeSilencesSpec (silences : List SilenceInterval) (minGap : ℚ) : List SilenceInterval :=
  match silences with
  | [] => []
  | first :: rest => (specRuns minGap first rest).map collapseRun

theorem specRuns_shape (g : ℚ) (a : SilenceInterval) (l : List SilenceInterval) :
    ∃ r t, specRuns g a l = (a, r) :: t := by
  cases l with
  | nil => exact ⟨[], [], rfl⟩
  | cons b rest =>
    rw [specRuns]
    split
    · rcases h : specRuns g b rest with _ | ⟨⟨h1, r⟩, t⟩
      · exact ⟨[], [], rfl⟩
      · exact ⟨h1 :: r, t, rfl⟩
    · exact ⟨[], specRuns g b rest, rfl⟩

theorem map_collapse_absorb (g : ℚ) (cur b : SilenceInterval) (rest : List SilenceInterval) :
    (specRuns g { cur with stop := b.stop } rest).map collapseRun =
      (consHead cur (specRuns g b rest)).map collapseRun := by
  cases rest with
  | nil =>
    simp [specRuns, consHead, collapseRun, List.getLastD]
  | cons c rest =>
    rw [specRuns, specRuns]
    by_cases hgap : c.start - b.stop < g
    · rw [if_pos hgap, if_pos (by simpa using hgap)]
      rcases h : specRuns g c rest with _ | ⟨⟨h1, r⟩, t⟩
      · simp [consHead, collapseRun, List.getLastD]
      · simp only [consHead, List.map_cons, List.cons.injEq, and_true]
        unfold collapseRun
        simp only [List.getLastD_cons]
    · rw [if_neg hgap, if_neg (by simpa using hgap)]
      simp only [consHead, List.map_cons, List.cons.injEq, and_true]
      unfold collapseRun
      simp [List.getLastD]

theorem mergeGo_eq_spec (g : ℚ) :
    ∀ (rest : List SilenceInterval) (cur : SilenceInterval),
      mergeGo g cur rest = (specRuns g cur rest).map collapseRun
  | [], cur => by simp [mergeGo, specRuns, collapseRun, List.getLastD]
  | b :: rest, cur => by
    rw [mergeGo, specRuns]
    by_cases hgap : b.start - cur.stop < g
    · rw [if_pos hgap, if_pos hgap, mergeGo_eq_spec g rest, map_collapse_absorb]
    · rw [if_neg hgap, if_neg hgap, mergeGo_eq_spec g rest]
      simp [collapseRun, List.getLastD]

theorem mergeSilences_eq_spec (ss : List SilenceInterval) (g : ℚ) :
    mergeSilences ss g = mergeSilencesSpec ss g := by
  cases ss with
  | nil => rfl
  | cons a rest => simpa [mergeSilences, mergeSilencesSpec] using mergeGo_eq_spec g rest a

/-- Total covered duration of an interval list: the sum of `stop - start`. -/
def totalCovered (l : List SilenceInterval) : ℚ := (l.map (fun x => x.stop - x.start)).sum

theorem mergeGo_head (g : ℚ) :
    ∀ (rest : List SilenceInterval) (cur : SilenceInterval),
      ∃ h t, mergeGo g cur rest = h :: t ∧ h.start = cur.start
  | [], cur => ⟨cur, [], rfl, rfl⟩
  | b :: rest, cur => by
    rw [mergeGo]
    by_cases hgap : b.start - cur.stop < g
    · rw [if_pos hgap]
      exact mergeGo_head g rest { cur with stop := b.stop }
    · rw [if_neg hgap]
      exact ⟨cur, mergeGo g b rest, rfl, rfl⟩

theorem mergeGo_chain' (g : ℚ) :
    ∀ (rest : List SilenceInterval) (cur : SilenceInterval),
      List.Chain' ovO (cur :: rest) → List.Chain' ovO (mergeGo g cur rest)
  | [], cur => fun _ => List.chain'_singleton cur
  | b :: rest, cur => by
    intro hc
    rw [List.chain'_cons] at hc
    rw [mergeGo]
    by_cases hgap : b.start - cur.stop < g
    · rw [if_pos hgap]
      refine mergeGo_chain' g rest { cur with stop := b.stop } ?_
      rcases rest with _ | ⟨c, rest⟩
      · exact List.chain'_singleton _
      · rw [List.chain'_cons] at hc ⊢
        exact ⟨hc.2.1, hc.2.2⟩
    · rw [if_neg hgap]
      rcases mergeGo_head g rest b with ⟨h, t, heq, hstart⟩
      rw [heq, List.chain'_cons]
      refine ⟨?_, heq ▸ mergeGo_chain' g rest b hc.2⟩
      show cur.stop ≤ h.start
      rw [hstart]
      exact hc.1

theorem mergeGo_wf (g : ℚ) :
    ∀ (rest : List SilenceInterval) (cur : SilenceInterval),
      List.Chain' ovO (cur :: rest) → (∀ x ∈ cur :: rest, x.start < x.stop) →
      ∀ y ∈ mergeGo g cur rest, y.start < y.stop
  | [], cur => by
    intro _ hwf y hy
    rw [mergeGo, List.mem_singleton] at hy
    exact hy ▸ hwf cur (by simp)
  | b :: rest, cur => by
    intro hc hwf y hy
    rw [List.chain'_cons] at hc
    rw [mergeGo] at hy
    by_cases hgap : b.start - cur.stop < g
    · rw [if_pos hgap] at hy
      refine mergeGo_wf g rest { cur with stop := b.stop } ?_ ?_ y hy
      · rcases rest with _ | ⟨c, rest⟩
        · exact List.chain'_singleton _
        · rw [List.chain'_cons] at hc ⊢
          exact ⟨hc.2.1, hc.2.2⟩
      · intro x hx
        rcases List.mem_cons.mp hx with hx | hx
        · subst hx
          show cur.start < b.stop
          have h1 : cur.start < cur.stop := hwf cur (by simp)
          have h2 : b.start < b.stop := hwf b (by simp)
          have h3 : cur.stop ≤ b.start := hc.1
          linarith
        · exact hwf x (by simp [hx])
    · rw [if_neg hgap] at hy
      rcases List.mem_cons.mp hy with hy | hy
      · exact hy ▸ hwf cur (by simp)
      · exact mergeGo_wf g rest b hc.2 (fun x hx => hwf x (by simp [List.mem_cons.mp hx])) y hy

theorem mergeGo_totalCovered (g : ℚ) :
    ∀ (rest : List SilenceInterval) (cur : SilenceInterval),
      List.Chain' ovO (cur :: rest) →
      totalCovered (cur :: rest) ≤ totalCovered (mergeGo g cur rest)
  | [], cur => by
    intro _
    rw [mergeGo]
  | b :: rest, cur => by
    intro hc
    rw [List.chain'_cons] at hc
    rw [mergeGo]
    by_cases hgap : b.start - cur.stop < g
    · rw [if_pos hgap]
      have ih := mergeGo_totalCovered g rest { cur with stop := b.stop } ?_
      · refine le_trans ?_ ih
        have hov : cur.stop ≤ b.start := hc.1
        simp only [totalCovered, List.map_cons, List.sum_cons]
        linarith
      · rcases rest with _ | ⟨c, rest⟩
        · exact List.chain'_singleton _
        · rw [List.chain'_cons] at hc ⊢
          exact ⟨hc.2.1, hc.2.2⟩
    · rw [if_neg hgap]
      have ih := mergeGo_totalCovered g rest b hc.2
      simp only [totalCovered, List.map_cons, List.sum_cons] at ih ⊢
      linarith

/-- Between two consecutive elements of the merge output, the gap is at
least `minGap` (the loop only keeps a boundary when the gap check fails). -/
def gapGE (g : ℚ) (a b : SilenceInterval) : Prop := ¬ (b.start - a.stop < g)

theorem mergeGo_gaps (g : ℚ) :
    ∀ (rest : List SilenceInterval) (cur : SilenceInterval),
      List.Chain' (gapGE g) (mergeGo g cur rest)
  | [], cur => List.chain'_singleton cur
  | b :: rest, cur => by
    rw [mergeGo]
    by_cases hgap : b.start - cur.stop < g
    · rw [if_pos hgap]
      exact mergeGo_gaps g rest { cur with stop := b.stop }
    · rw [if_neg hgap]
      rcases mergeGo_head g rest b with ⟨h, t, heq, hstart⟩
      rw [heq, List.chain'_cons]
      refine ⟨?_, heq ▸ mergeGo_gaps g rest b⟩
      show ¬ (h.start - cur.stop < g)
      rw [hstart]
      exact hgap

theorem mergeSilences_of_gaps (g : ℚ) :
    ∀ (l : List SilenceInterval), List.Chain' (gapGE g) l → mergeSilences l g = l := by
  intro l hl
  cases l with
  | nil => rfl
  | cons a rest =>
    show mergeGo g a rest = a :: rest
    induction rest generalizing a with
    | nil => rfl
    | cons b rest ih =>
      rw [List.chain'_cons] at hl
      rw [mergeGo, if_neg hl.1]
      rw [ih b hl.2]

theorem chain'_ovO_start :
    ∀ (l : List SilenceInterval), List.Chain' ovO l → (∀ x ∈ l, x.start < x.stop) →
      List.Chain' (fun a b => a.start ≤ b.start) l
  | [] => fun _ _ => List.chain'_nil
  | [a] => fun _ _ => List.chain'_singleton a
  | a :: b :: t => fun hc hwf => by
    rw [List.chain'_cons] at hc ⊢
    refine ⟨?_, chain'_ovO_start (b :: t) hc.2 (fun x hx => hwf x (by simp [hx]))⟩
    have h1 : a.start < a.stop := hwf a (by simp)
    have h2 : a.stop ≤ b.start := hc.1
    show a.start ≤ b.start
    linarith

/-- A small concrete silence list (gap `4 - 3 = 1`) used to instantiate
the merge theorems: with `minGap = 2` the two intervals coalesce. -/
def exampleSilences : List SilenceInterval := [⟨2, 3, 1⟩, ⟨4, 6, 2⟩]

theorem exampleSilences_chain : List.Chain' ovO exampleSilences := by
  simp only [exampleSilences, List.chain'_cons, List.chain'_singleton, ovO, and_true]
  norm_num

theorem exampleSilences_startChain :
    List.Chain' (fun a b : SilenceInterval => a.start ≤ b.start) exampleSilences := by
  simp only [exampleSilences, List.chain'_cons, List.chain'_singleton, and_true]
  norm_num

/-- C2: on an input list ordered by start and pairwise non-overlapping,
`mergeSilences` coalesces exactly the maximal runs of consecutive
intervals whose gaps are strictly below `minGap` (it equals the run-based
specification `mergeSilencesSpec`); the output is ordered by start and
non-overlapping; the total covered duration does not decrease; the empty
input yields the empty output; and a single interval is returned
unchanged. -/
theorem mergeSilences_correct (ss : List SilenceInterval) (g : ℚ)
    (hov : List.Chain' ovO ss) (hwf : ∀ x ∈ ss, x.start < x.stop) :
    mergeSilences ss g = mergeSilencesSpec ss g
    ∧ List.Chain' (fun a b => a.start ≤ b.start) (mergeSilences ss g)
    ∧ List.Chain' ovO (mergeSilences ss g)
    ∧ totalCovered ss ≤ totalCovered (mergeSilences ss g)
    ∧ mergeSilences ([] : List SilenceInterval) g = []
    ∧ ∀ a : SilenceInterval, mergeSilences [a] g = [a] := by
  refine ⟨mergeSilences_eq_spec ss g, ?_, ?_, ?_, rfl, fun a => rfl⟩
  · cases ss with
    | nil => exact List.chain'_nil
    | cons a rest =>
      exact chain'_ovO_start _ (mergeGo_chain' g rest a hov) (mergeGo_wf g rest a hov hwf)
  · cases ss with
    | nil => exact List.chain'_nil
    | cons a rest => exact mergeGo_chain' g rest a hov
  · cases ss with
    | nil => exact le_refl 0
    | cons a rest => exact mergeGo_totalCovered g rest a hov

theorem mergeSilences_correct_witness :
    mergeSilences exampleSilences 2 = mergeSilencesSpec exampleSilences 2
    ∧ totalCovered exampleSilences ≤ totalCovered (mergeSilences exampleSilences 2)
    ∧ mergeSilences exampleSilences 2 = [⟨2, 6, 1⟩] := by
  have h := mergeSilences_correct exampleSilences 2 exampleSilences_chain (by decide)
  refine ⟨h.1, h.2.2.2.1, ?_⟩
  show mergeGo 2 ⟨2, 3, 1⟩ [⟨4, 6, 2⟩] = [⟨2, 6, 1⟩]
  rw [mergeGo, if_pos (by norm_num)]
  rfl

/-- C9: re-running `mergeSilences` on its own output returns the output
unchanged (the merge is idempotent): every boundary kept by the loop has
a gap of at least `minGap`, so the second pass merges nothing. -/
theorem mergeSilences_idempotent (ss : List SilenceInterval) (g : ℚ)
    (_hord : List.Chain' (fun a b => a.start ≤ b.start) ss) (_hov : List.Chain' ovO ss) :
    mergeSilences (mergeSilences ss g) g = mergeSilences ss g := by
  cases ss with
  | nil => rfl
  | cons a rest => exact mergeSilences_of_gaps g _ (mergeGo_gaps g rest a)

theorem mergeSilences_idempotent_witness :
    mergeSilences (mergeSilences exampleSilences 2) 2 = mergeSilences exampleSilences 2 :=
  mergeSilences_idempotent exampleSilences 2 exampleSilences_startChain exampleSilences_chain

/-- Loop of `buildKeepSegments` (video_processing_service.ts, lines
329-350): `currentStart` walks the silences; a keep segment is emitted
for any gap strictly before the next silence start, plus a trailing
segment up to `totalDuration` when nonzero-length. -/
def buildKeepGo (totalDuration : ℚ) : ℚ → List SilenceInterval → List Segment
  | currentStart, [] =>
    if currentStart < totalDuration then [⟨currentStart, totalDuration⟩] else []
  | currentStart, s :: rest =>
    if s.start > currentStart then
      ⟨currentStart, s.start⟩ :: buildKeepGo totalDuration s.stop rest
    else
      buildKeepGo totalDuration s.stop rest

/-- `buildKeepSegments` from video_processing_service.ts (lines 325-351):
the walk starts at `currentStart = 0`. -/
def buildKeepSegments (silences : List SilenceInterval) (totalDuration : ℚ) : List Segment :=
  buildKeepGo totalDuration 0 silences

/-- The silence list is ordered by start, pairwise non-overlapping, each
interval well-formed, and starts no earlier than `c`. -/
def sortedFrom (c : ℚ) : List SilenceInterval → Prop
  | [] => True
  | s :: rest => c ≤ s.start ∧ s.start ≤ s.stop ∧ sortedFrom s.stop rest

/-- Membership of a time point in a keep segment (half-open). -/
def segMem (x : ℚ) (k : Segment) : Prop := k.start ≤ x ∧ x < k.stop

/-- Membership of a time point in a silence interval (half-open). -/
def silMem (x : ℚ) (s : SilenceInterval) : Prop := s.start ≤ x ∧ x < s.stop

theorem sortedFrom_mono (c : ℚ) :
    ∀ (l : List SilenceInterval), sortedFrom c l → ∀ s ∈ l, c ≤ s.start := by
  intro l
  induction l generalizing c with
  | nil => intro _ s hs; cases hs
  | cons a rest ih =>
    intro h s hs
    rcases h with ⟨hca, hab, hrest⟩
    rcases List.mem_cons.mp hs with rfl | hs
    · exact hca
    · have := ih a.stop hrest s hs
      linarith

theorem buildKeepGo_partition (D : ℚ) :
    ∀ (sil : List SilenceInterval) (c : ℚ), sortedFrom c sil → (∀ s ∈ sil, s.stop ≤ D) →
      ∀ x : ℚ, (c ≤ x ∧ x < D) ↔
        ((∃ k ∈ buildKeepGo D c sil, segMem x k) ∨ ∃ s ∈ sil, silMem x s) := by
  intro sil
  induction sil with
  | nil =>
    intro c _ _ x
    rw [buildKeepGo]
    by_cases hcD : c < D
    · rw [if_pos hcD]
      simp [segMem]
    · rw [if_neg hcD]
      simp only [List.not_mem_nil, false_and, exists_false, or_self, iff_false, not_and, not_lt]
      intro hcx
      linarith [le_of_not_lt hcD]
  | cons s rest ih =>
    intro c hsorted hD x
    rcases hsorted with ⟨hcs, hss, hrest⟩
    have hsD : s.stop ≤ D := hD s (by simp)
    have ihx := ih s.stop hrest (fun t ht => hD t (by simp [ht])) x
    rw [buildKeepGo, List.exists_mem_cons_iff]
    by_cases hemit : s.start > c
    · rw [if_pos hemit, List.exists_mem_cons_iff]
      constructor
      · rintro ⟨hcx, hxD⟩
        rcases lt_or_le x s.start with hx1 | hx1
        · exact Or.inl (Or.inl ⟨hcx, hx1⟩)
        · rcases lt_or_le x s.stop with hx2 | hx2
          · exact Or.inr (Or.inl ⟨hx1, hx2⟩)
          · rcases (ihx.mp ⟨hx2, hxD⟩) with hk | hsil
            · exact Or.inl (Or.inr hk)
            · exact Or.inr (Or.inr hsil)
      · rintro ((⟨h1, h2⟩ | hk) | (⟨h1, h2⟩ | hsil))
        · refine ⟨h1, ?_⟩
          have h2' : x < s.start := h2
          linarith
        · have := ihx.mpr (Or.inl hk)
          exact ⟨by linarith [this.1], this.2⟩
        · exact ⟨by linarith, by linarith⟩
        · have := ihx.mpr (Or.inr hsil)
          exact ⟨by linarith [this.1], this.2⟩
    · rw [if_neg hemit]
      have hcs' : s.start = c := le_antisymm (le_of_not_lt hemit) hcs
      constructor
      · rintro ⟨hcx, hxD⟩
        rcases lt_or_le x s.stop with hx2 | hx2
        · exact Or.inr (Or.inl ⟨by rw [hcs']; exact hcx, hx2⟩)
        · rcases (ihx.mp ⟨hx2, hxD⟩) with hk | hsil
          · exact Or.inl hk
          · exact Or.inr (Or.inr hsil)
      · rintro (hk | (⟨h1, h2⟩ | hsil))
        · have := ihx.mpr (Or.inl hk)
          exact ⟨by linarith [this.1], this.2⟩
        · exact ⟨by rw [← hcs']; exact h1, by linarith⟩
        · have := ihx.mpr (Or.inr hsil)
          exact ⟨by linarith [this.1], this.2⟩

theorem buildKeepGo_bounds (D : ℚ) :
    ∀ (sil : List SilenceInterval) (c : ℚ), sortedFrom c sil →
      ∀ k ∈ buildKeepGo D c sil, c ≤ k.start ∧ k.start < k.stop := by
  intro sil
  induction sil with
  | nil =>
    intro c _ k hk
    rw [buildKeepGo] at hk
    by_cases hcD : c < D
    · rw [if_pos hcD, List.mem_singleton] at hk
      subst hk
      exact ⟨le_refl c, hcD⟩
    · rw [if_neg hcD] at hk
      cases hk
  | cons s rest ih =>
    intro c hsorted k hk
    rcases hsorted with ⟨hcs, hss, hrest⟩
    rw [buildKeepGo] at hk
    by_cases hemit : s.start > c
    · rw [if_pos hemit] at hk
      rcases List.mem_cons.mp hk with rfl | hk
      · exact ⟨le_refl c, hemit⟩
      · have := ih s.stop hrest k hk
        exact ⟨by linarith [this.1], this.2⟩
    · rw [if_neg hemit] at hk
      have := ih s.stop hrest k hk
      exact ⟨by linarith [this.1, le_of_not_lt hemit], this.2⟩

theorem buildKeepGo_chain (D : ℚ) :
    ∀ (sil : List SilenceInterval) (c : ℚ), sortedFrom c sil →
      List.Chain' (fun a b : Segment => a.stop ≤ b.start) (buildKeepGo D c sil) := by
  intro sil
  induction sil with
  | nil =>
    intro c _
    rw [buildKeepGo]
    by_cases hcD : c < D
    · rw [if_pos hcD]; exact List.chain'_singleton _
    · rw [if_neg hcD]; exact List.chain'_nil
  | cons s rest ih =>
    intro c hsorted
    rcases hsorted with ⟨hcs, hss, hrest⟩
    rw [buildKeepGo]
    by_cases hemit : s.start > c
    · rw [if_pos hemit]
      rcases h : buildKeepGo D s.stop rest with _ | ⟨k, t⟩
      · exact List.chain'_singleton _
      · rw [List.chain'_cons]
        have hk := buildKeepGo_bounds D rest s.stop hrest k (h ▸ List.mem_cons_self k t)
        exact ⟨by show s.start ≤ k.start; linarith [hk.1], h ▸ ih s.stop hrest⟩
    · rw [if_neg hemit]
      exact ih s.stop hrest

theorem buildKeepGo_disjoint (D : ℚ) :
    ∀ (sil : List SilenceInterval) (c : ℚ), sortedFrom c sil →
      ∀ k ∈ buildKeepGo D c sil, ∀ s ∈ sil, ∀ x : ℚ, ¬ (segMem x k ∧ silMem x s) := by
  intro sil
  induction sil with
  | nil => intro c _ k _ s hs; cases hs
  | cons s rest ih =>
    rintro c hsorted k hk t ht x ⟨hxk, hxt⟩
    rcases hsorted with ⟨hcs, hss, hrest⟩
    rcases hxk with ⟨hkx1, hkx2⟩
    rcases hxt with ⟨htx1, htx2⟩
    rw [buildKeepGo] at hk
    by_cases hemit : s.start > c
    · rw [if_pos hemit] at hk
      rcases List.mem_cons.mp hk with rfl | hk
      · rcases List.mem_cons.mp ht with rfl | ht
        · have hx : x < t.start := hkx2
          linarith
        · have hmono := sortedFrom_mono s.stop rest hrest t ht
          have hx : x < s.start := hkx2
          linarith
      · rcases List.mem_cons.mp ht with rfl | ht
        · have hb := (buildKeepGo_bounds D rest t.stop hrest k hk).1
          linarith
        · exact ih s.stop hrest k hk t ht x ⟨⟨hkx1, hkx2⟩, ⟨htx1, htx2⟩⟩
    · rw [if_neg hemit] at hk
      rcases List.mem_cons.mp ht with rfl | ht
      · have hb := (buildKeepGo_bounds D rest t.stop hrest k hk).1
        linarith
      · exact ih s.stop hrest k hk t ht x ⟨⟨hkx1, hkx2⟩, ⟨htx1, htx2⟩⟩

/-- C3: for a silence list ordered by start, non-overlapping, and
contained in `[0, D)`, the keep segments returned by `buildKeepSegments`
are ordered and non-overlapping, their union together with the union of
the silences is exactly `[0, D)`, keep segments never overlap silences,
an empty silence list with `D > 0` yields the single segment `(0, D)`,
and silences `[(2,4)]` with `D = 10` yield `[(0,2), (4,10)]`. -/
theorem buildKeepSegments_partition (sil : List SilenceInterval) (D : ℚ)
    (hsorted : sortedFrom 0 sil) (hD : ∀ s ∈ sil, s.stop ≤ D) :
    (∀ x : ℚ, (0 ≤ x ∧ x < D) ↔
        ((∃ k ∈ buildKeepSegments sil D, segMem x k) ∨ ∃ s ∈ sil, silMem x s))
    ∧ List.Chain' (fun a b : Segment => a.stop ≤ b.start) (buildKeepSegments sil D)
    ∧ (∀ k ∈ buildKeepSegments sil D, k.start < k.stop)
    ∧ (∀ k ∈ buildKeepSegments sil D, ∀ s ∈ sil, ∀ x : ℚ, ¬ (segMem x k ∧ silMem x s))
    ∧ (0 < D → buildKeepSegments [] D = [⟨0, D⟩])
    ∧ buildKeepSegments [⟨2, 4, 2⟩] 10 = [⟨0, 2⟩, ⟨4, 10⟩] := by
  refine ⟨buildKeepGo_partition D sil 0 hsorted hD, buildKeepGo_chain D sil 0 hsorted,
    fun k hk => (buildKeepGo_bounds D sil 0 hsorted k hk).2,
    buildKeepGo_disjoint D sil 0 hsorted, ?_, ?_⟩
  · intro hD0
    show buildKeepGo D 0 [] = [⟨0, D⟩]
    rw [buildKeepGo, if_pos hD0]
  · show buildKeepGo 10 0 [⟨2, 4, 2⟩] = [⟨0, 2⟩, ⟨4, 10⟩]
    norm_num [buildKeepGo]

theorem buildKeepSegments_partition_witness :
    buildKeepSegments [⟨2, 4, 2⟩] 10 = [⟨0, 2⟩, ⟨4, 10⟩]
    ∧ ∀ k ∈ buildKeepSegments [⟨2, 4, 2⟩] 10, k.start < k.stop := by
  have h := buildKeepSegments_partition [⟨2, 4, 2⟩] 10
    (by norm_num [sortedFrom])
    (by intro s hs; rw [List.mem_singleton] at hs; subst hs; norm_num)
  exact ⟨h.2.2.2.2.2, h.2.2.1⟩

/-- Recomputed duration of an interval, `end - start`: the cap step's
comparator is `(b.end - b.start) - (a.end - a.start)`, not the stored
`duration` field. -/
def lenQ (a : SilenceInterval) : ℚ := a.stop - a.start

/-- Order of the cap step's first sort: descending by recomputed
duration (`a` may come before `b` when `b`'s duration is no larger). -/
def lenGE (a b : SilenceInterval) : Prop := lenQ b ≤ lenQ a

instance : DecidableRel lenGE := fun a b => inferInstanceAs (Decidable (lenQ b ≤ lenQ a))

instance : IsTotal SilenceInterval lenGE := ⟨fun a b => le_total (lenQ b) (lenQ a)⟩

instance : IsTrans SilenceInterval lenGE := ⟨fun _ _ _ h1 h2 => le_trans h2 h1⟩

/-- Order of the cap step's second sort: ascending by `start`. -/
def startLE (a b : SilenceInterval) : Prop := a.start ≤ b.start

instance : DecidableRel startLE := fun a b => inferInstanceAs (Decidable (a.start ≤ b.start))

instance : IsTotal SilenceInterval startLE := ⟨fun a b => le_total a.start b.start⟩

instance : IsTrans SilenceInterval startLE := ⟨fun _ _ _ h1 h2 => le_trans h1 h2⟩

/-- Cap step inside `processNext` (job queue service, lines 92-98): when
more than 10 silences remain, sort by duration descending, keep the 10
longest, and re-sort those by start ascending.  JavaScript's
`Array.prototype.sort` is stable (ES2019), which insertion sort models
exactly. -/
def capSilences (silences : List SilenceInterval) : List SilenceInterval :=
  if silences.length > 10 then
    List.insertionSort startLE ((List.insertionSort lenGE silences).take 10)
  else silences

theorem pairwise_orderedInsert {α : Type} (r q : α → α → Prop) [DecidableRel r] (a : α) :
    ∀ (m : List α), List.Pairwise q m → (∀ b ∈ m, q a b) → (∀ b ∈ m, ¬ r a b → q b a) →
      List.Pairwise q (List.orderedInsert r a m)
  | [] => fun _ _ _ => List.pairwise_singleton q a
  | b :: m => fun hm hafter hskip => by
    rw [List.orderedInsert]
    by_cases hr : r a b
    · rw [if_pos hr]
      exact List.Pairwise.cons hafter hm
    · rw [if_neg hr]
      rw [List.pairwise_cons] at hm ⊢
      refine ⟨?_, pairwise_orderedInsert r q a m hm.2
        (fun x hx => hafter x (by simp [hx])) (fun x hx => hskip x (by simp [hx]))⟩
      intro x hx
      rcases (List.mem_orderedInsert r).mp hx with rfl | hx
      · exact hskip b (by simp) hr
      · exact hm.1 x hx

theorem pairwise_insertionSort_stable {α : Type} (r q : α → α → Prop) [DecidableRel r]
    (compat : ∀ a b, ¬ r a b → q b a) :
    ∀ (l : List α), List.Pairwise q l → List.Pairwise q (List.insertionSort r l)
  | [] => fun _ => List.Pairwise.nil
  | a :: l => fun hl => by
    rw [List.insertionSort]
    rw [List.pairwise_cons] at hl
    refine pairwise_orderedInsert r q a _ (pairwise_insertionSort_stable r q compat l hl.2) ?_ ?_
    · intro b hb
      exact hl.1 b ((List.perm_insertionSort r l).mem_iff.mp hb)
    · intro b _ hr
      exact compat a b hr

/-- Twelve concrete silences with pairwise distinct durations `1..12`,
listed in ascending start order. -/
def twelveSilences : List SilenceInterval :=
  [⟨0, 1, 1⟩, ⟨10, 12, 2⟩, ⟨20, 23, 3⟩, ⟨30, 34, 4⟩, ⟨40, 45, 5⟩, ⟨50, 56, 6⟩,
   ⟨60, 67, 7⟩, ⟨70, 78, 8⟩, ⟨80, 89, 9⟩, ⟨90, 100, 10⟩, ⟨110, 121, 11⟩, ⟨130, 142, 12⟩]

/-- C4: the cap step returns its input unchanged when at most 10
silences remain; otherwise it returns exactly 10 intervals, a
permutation of a selection `kept` such that every dropped interval has a
strictly smaller recomputed duration than every kept one, or an equal
duration and a start no earlier (ties favour the earliest start), and
the result is re-sorted by start ascending; on the 12 concrete intervals
it drops exactly the two shortest. -/
theorem capSilences_correct :
    (∀ ss : List SilenceInterval, ss.length ≤ 10 → capSilences ss = ss)
    ∧ (∀ ss : List SilenceInterval, List.Chain' startLE ss → 10 < ss.length →
        (capSilences ss).length = 10
        ∧ List.Sorted startLE (capSilences ss)
        ∧ ∃ kept dropped : List SilenceInterval,
            List.Perm (capSilences ss) kept
            ∧ List.Perm ss (kept ++ dropped)
            ∧ ∀ k ∈ kept, ∀ d ∈ dropped,
                lenQ d < lenQ k ∨ (lenQ d = lenQ k ∧ k.start ≤ d.start))
    ∧ capSilences twelveSilences = twelveSilences.drop 2 := by
  refine ⟨?_, ?_, ?_⟩
  · intro ss hlen
    rw [capSilences, if_neg (by omega)]
  · intro ss hchain hlen
    have hif : capSilences ss = List.insertionSort startLE ((List.insertionSort lenGE ss).take 10) := by
      rw [capSilences, if_pos (by omega)]
    have hsortlen : (List.insertionSort lenGE ss).length = ss.length :=
      (List.perm_insertionSort lenGE ss).length_eq
    refine ⟨?_, ?_, ?_⟩
    · rw [hif, (List.perm_insertionSort startLE _).length_eq, List.length_take, hsortlen]
      omega
    · rw [hif]
      exact List.sorted_insertionSort startLE _
    · refine ⟨(List.insertionSort lenGE ss).take 10, (List.insertionSort lenGE ss).drop 10,
        hif ▸ List.perm_insertionSort startLE _, ?_, ?_⟩
      · have := (List.perm_insertionSort lenGE ss).symm
        rwa [← List.take_append_drop 10 (List.insertionSort lenGE ss)] at this
      · have hsorted : List.Pairwise lenGE (List.insertionSort lenGE ss) :=
          List.sorted_insertionSort lenGE ss
        have hq : List.Pairwise (fun a b => lenQ a = lenQ b → a.start ≤ b.start) ss := by
          have hpw := (List.chain'_iff_pairwise (R := startLE)).mp hchain
          refine List.Pairwise.imp ?_ hpw
          intro a b hab _
          exact hab
        have hstable : List.Pairwise (fun a b => lenQ a = lenQ b → a.start ≤ b.start)
            (List.insertionSort lenGE ss) := by
          refine pairwise_insertionSort_stable lenGE _ ?_ ss hq
          intro a b hr heq
          exact absurd (le_of_eq heq) hr
        rw [← List.take_append_drop 10 (List.insertionSort lenGE ss)] at hsorted hstable
        have hcross1 := (List.pairwise_append.mp hsorted).2.2
        have hcross2 := (List.pairwise_append.mp hstable).2.2
        intro k hk d hd
        have hle : lenQ d ≤ lenQ k := hcross1 k hk d hd
        rcases lt_or_eq_of_le hle with hlt | heq
        · exact Or.inl hlt
        · exact Or.inr ⟨heq, hcross2 k hk d hd heq.symm⟩
  · norm_num [capSilences, twelveSilences, List.insertionSort, List.orderedInsert, lenGE, lenQ,
      startLE]

theorem capSilences_correct_witness :
    capSilences twelveSilences = twelveSilences.drop 2
    ∧ (capSilences twelveSilences).length = 10 := by
  have h := capSilences_correct
  refine ⟨h.2.2, (h.2.1 twelveSilences ?_ (by norm_num [twelveSilences])).1⟩
  simp only [twelveSilences, List.chain'_cons, List.chain'_singleton, startLE, and_true]
  norm_num

/-- Boolean test that `pat` is a prefix of `l` (character lists). -/
def charListPrefixOf : List Char → List Char → Bool
  | [], _ => true
  | _ :: _, [] => false
  | a :: as, b :: bs => a == b && charListPrefixOf as bs

/-- Boolean test that `pat` occurs as a contiguous sublist of `l`. -/
def charListHasSub (pat : List Char) : List Char → Bool
  | [] => charListPrefixOf pat []
  | b :: bs => charListPrefixOf pat (b :: bs) || charListHasSub pat bs

/-- JavaScript's `String.prototype.includes`, on Lean strings. -/
def strIncludes (s pat : String) : Bool := charListHasSub pat.toList s.toList

/-- Permanent-failure classifier of `processNext` (job queue service,
lines 119-125): an error whose message contains any of the markers is a
processing error and is never retried. -/
def isProcessingError (msg : String) : Bool :=
  strIncludes msg "FFmpeg" || strIncludes msg "memory" || strIncludes msg "timeout" ||
  strIncludes msg "failed" || strIncludes msg "ENOMEM" || strIncludes msg "killed"

/-- User-facing message for an out-of-memory processing failure. -/
def memoryErrorMsg : String :=
  "Vidéo trop volumineuse pour être traitée. Essayez avec une vidéo plus courte ou de résolution inférieure."

/-- User-facing message for a timeout/kill processing failure. -/
def timeoutErrorMsg : String :=
  "Le traitement a pris trop de temps. Essayez avec une vidéo plus courte."

/-- User-facing message for any other processing failure. -/
def genericErrorMsg : String :=
  "Erreur lors du traitement de la vidéo. Vérifiez que le fichier est valide."

/-- User-facing message once the retry budget is exhausted. -/
def maxRetriesMsg : String := "Le traitement a échoué après plusieurs tentatives."

/-- Error recorded when a processing job is cancelled. -/
def cancelledMsg : String := "Job cancelled by user"

/-- Category selection of the permanent-failure message (job queue
service, lines 131-138). -/
def processingErrorUserMessage (msg : String) : String :=
  if strIncludes msg "memory" || strIncludes msg "ENOMEM" then memoryErrorMsg
  else if strIncludes msg "timeout" || strIncludes msg "killed" then timeoutErrorMsg
  else genericErrorMsg

/-- Lifecycle states of a job (`JobStatus['status']`). -/
inductive JobState
  | queued
  | processing
  | completed
  | failed
deriving Repr, DecidableEq

/-- Result reported on successful processing (`ProcessingResult`);
`outputPath` is omitted as no claim mentions it. -/
structure ProcessingResult where
  originalDuration : ℚ
  finalDuration : ℚ
  timeSaved : ℚ
  percentageSaved : ℚ
  silencesRemoved : Nat
deriving Repr, DecidableEq

/-- A job record (`Job`); `createdAt`/`updatedAt` timestamps are
omitted since time is not modelled and no claim mentions them. -/
structure Job where
  inputPath : String
  outputPath : String
  status : JobState
  progress : Nat
  retries : Nat
  error : Option String
  result : Option ProcessingResult
deriving Repr, DecidableEq

/-- State of `JobQueueService`: the `jobs` map (association list), the
pending `queue`, the `processing` set, and the concurrency ceiling.  A
`processing` entry also carries the `Job` value the pipeline captured
when it started, since the code's `catch` block reads the captured
object's `retries` field. -/
structure QState where
  jobs : List (String × Job)
  queue : List String
  processing : List (String × Job)
  maxConcurrentJobs : Nat
deriving Repr, DecidableEq

/-- Fresh service state (jobs empty, queue empty, nothing active). -/
def initState (maxConcurrent : Nat) : QState :=
  { jobs := [], queue := [], processing := [], maxConcurrentJobs := maxConcurrent }

/-- `this.jobs.get(videoId)`. -/
def lookupJob (s : QState) (id : String) : Option Job :=
  (s.jobs.find? (fun p => p.1 == id)).map (fun p => p.2)

/-- `this.jobs.set(id, job)`: replace-or-insert. -/
def mapSet (id : String) (j : Job) (m : List (String × Job)) : List (String × Job) :=
  m.eraseP (fun p => p.1 == id) ++ [(id, j)]

/-- Mutation of the job object held in the map: visible only when the
map still holds an entry for `id`. -/
def mapReplace (id : String) (j : Job) (m : List (String × Job)) : List (String × Job) :=
  m.map (fun p => if p.1 == id then (id, j) else p)

/-- `this.jobs.delete(id)`. -/
def mapDelete (id : String) (m : List (String × Job)) : List (String × Job) :=
  m.eraseP (fun p => p.1 == id)

/-- `this.processing.has(id)` (membership in the active set). -/
def inProcessing (s : QState) (id : String) : Bool :=
  s.processing.any (fun p => p.1 == id)

/-- `this.processing.add(id)`: a `Set` insert is a no-op on members. -/
def procAdd (id : String) (j : Job) (l : List (String × Job)) : List (String × Job) :=
  if l.any (fun p => p.1 == id) then l else l ++ [(id, j)]

/-- `this.processing.delete(id)`. -/
def procDelete (id : String) (l : List (String × Job)) : List (String × Job) :=
  l.eraseP (fun p => p.1 == id)

/-- `canAcceptNewJob` (job queue service, lines 223-225). -/
def canAcceptNewJob (s : QState) : Bool :=
  s.processing.length < s.maxConcurrentJobs

/-- Synchronous prefix of `processNext` (job queue service, lines
66-86): if admission is denied or the queue is empty, no-op; otherwise
shift the queue head, and when its job record exists, add it to the
active set and mark it processing (progress is 10 when the pipeline
first suspends, at `detectSilences`). -/
def processNextStart (s : QState) : QState :=
  if canAcceptNewJob s then
    match s.queue with
    | [] => s
    | id :: rest =>
      match lookupJob s id with
      | none => { s with queue := rest }
      | some j =>
        let started := { j with status := JobState.processing, progress := 10 }
        { s with queue := rest,
                 processing := procAdd id started s.processing,
                 jobs := mapReplace id started s.jobs }
  else s

/-- `addJob` (job queue service, lines 39-61): create a fresh queued
record (overwriting any record with the same id), append the id to the
queue tail, then immediately run `processNext` (whose synchronous prefix
executes before `addJob` returns).  The output path is derived from the
id; the storage layer's extension probing is filesystem I/O and is
irrelevant to every claim. -/
def addJob (id inputPath : String) (s : QState) : QState :=
  let j : Job :=
    { inputPath := inputPath, outputPath := id ++ "_cut.mp4", status := JobState.queued,
      progress := 0, retries := 0, error := none, result := none }
  processNextStart { s with jobs := mapSet id j s.jobs, queue := s.queue ++ [id] }

/-- Outcome of the two-phase pipeline awaited by `processNext`: either a
successful `ProcessingResult` or an error whose message the retry
classifier inspects. -/
inductive PipelineOutcome
  | success (result : ProcessingResult)
  | failure (errorMessage : String)
deriving Repr, DecidableEq

/-- Resumption of `processNext` after the pipeline settles (job queue
service, lines 100-160): on success the job completes at progress 100;
on failure, a permanent (processing) error fails the job with a
categorized message, a transient error below the retry budget re-queues
it at the queue tail with progress 0, and a transient error at the
budget fails it with the generic retry message; the `finally` block then
removes the id from the active set. -/
def processNextFinish (id : String) (outcome : PipelineOutcome) (s : QState) : QState :=
  match (s.processing.find? (fun p => p.1 == id)).map (fun p => p.2) with
  | none => s
  | some j =>
    let afterTry : QState :=
      match outcome with
      | PipelineOutcome.success r =>
        let done := { j with status := JobState.completed, progress := 100, result := some r }
        { s with jobs := mapReplace id done s.jobs }
      | PipelineOutcome.failure msg =>
        if isProcessingError msg then
          let perm := { j with status := JobState.failed,
                               error := some (processingErrorUserMessage msg) }
          { s with jobs := mapReplace id perm s.jobs }
        else if j.retries < 1 then
          let retried := { j with retries := j.retries + 1, status := JobState.queued,
                                  progress := 0 }
          { s with jobs := mapReplace id retried s.jobs, queue := s.queue ++ [id] }
        else
          let exhausted := { j with status := JobState.failed, error := some maxRetriesMsg }
          { s with jobs := mapReplace id exhausted s.jobs }
    { afterTry with processing := procDelete id afterTry.processing }

/-- `cancelJob` (job queue service, lines 185-202): splice the id out of
the queue (first occurrence), mark a processing job failed with the
cancellation error, then delete the record. -/
def cancelJob (id : String) (s : QState) : QState :=
  match lookupJob s id with
  | none => s
  | some j =>
    let s1 := { s with queue := s.queue.erase id }
    let cancelled := { j with status := JobState.failed, error := some cancelledMsg }
    let s2 :=
      if j.status = JobState.processing then
        { s1 with jobs := mapReplace id cancelled s1.jobs }
      else s1
    { s2 with jobs := mapDelete id s2.jobs }

/-- Number of jobs in the map whose status is `st`. -/
def countStatus (s : QState) (st : JobState) : Nat :=
  s.jobs.countP (fun p => p.2.status == st)

/-- The queue-membership/active-set-membership exclusivity invariant
strengthened for induction: the queue has no duplicates, the active-set
keys have no duplicates, and no queued id is active. -/
def QInv (s : QState) : Prop :=
  s.queue.Nodup ∧ (s.processing.map Prod.fst).Nodup ∧
    ∀ id ∈ s.queue, inProcessing s id = false

theorem not_key_of_any_eq_false {l : List (String × Job)} {id : String}
    (h : l.any (fun p => p.1 == id) = false) : id ∉ l.map Prod.fst := by
  intro hmem
  rcases List.mem_map.mp hmem with ⟨p, hp, hfst⟩
  have ht : l.any (fun p => p.1 == id) = true :=
    List.any_eq_true.mpr ⟨p, hp, by simp [hfst]⟩
  rw [h] at ht
  cases ht

theorem any_eraseP_key (id : String) :
    ∀ (l : List (String × Job)), (l.map Prod.fst).Nodup →
      (l.eraseP (fun p => p.1 == id)).any (fun p => p.1 == id) = false
  | [] => fun _ => rfl
  | (k, x) :: t => fun hnd => by
    rw [List.map_cons] at hnd
    rcases List.nodup_cons.mp hnd with ⟨hk, ht⟩
    by_cases hkid : k = id
    · subst hkid
      rw [List.eraseP_cons_of_pos (by simp)]
      rw [List.any_eq_false]
      intro p hp hbeq
      exact hk (List.mem_map.mpr ⟨p, hp, by simpa using hbeq⟩)
    · rw [List.eraseP_cons_of_neg (by simp [hkid])]
      rw [List.any_cons]
      have hb : (k == id) = false := by simpa using hkid
      show ((k == id) || (t.eraseP (fun p => p.1 == id)).any (fun p => p.1 == id)) = false
      rw [hb, Bool.false_or]
      exact any_eraseP_key id t ht

theorem any_of_any_eraseP {l : List (String × Job)} {q r : (String × Job) → Bool}
    (h : (l.eraseP q).any r = true) : l.any r = true := by
  rcases List.any_eq_true.mp h with ⟨x, hx, hrx⟩
  exact List.any_eq_true.mpr ⟨x, (l.eraseP_sublist).subset hx, hrx⟩

theorem QInv_initState (c : Nat) : QInv (initState c) := by
  refine ⟨List.nodup_nil, List.nodup_nil, ?_⟩
  intro id h
  cases h

theorem QInv_processNextStart (s : QState) (h : QInv s) : QInv (processNextStart s) := by
  rcases h with ⟨hnq, hnp, hqp⟩
  rw [processNextStart]
  by_cases hcan : canAcceptNewJob s = true
  · rw [if_pos hcan]
    rcases hq : s.queue with _ | ⟨id, rest⟩
    · simp only [hq]
      exact ⟨hq ▸ hnq, hnp, fun x hx => hqp x hx⟩
    simp only [hq]
    rw [hq] at hnq hqp
    rcases List.nodup_cons.mp hnq with ⟨hidrest, hnrest⟩
    rcases hl : lookupJob s id with _ | j
    · simp only [hl]
      refine ⟨hnrest, hnp, ?_⟩
      intro x hx
      exact hqp x (List.mem_cons_of_mem id hx)
    · simp only [hl]
      have hidproc : inProcessing s id = false := hqp id (List.mem_cons_self id rest)
      rw [inProcessing] at hidproc
      have hproc : procAdd id { j with status := JobState.processing, progress := 10 }
          s.processing = s.processing ++
            [(id, { j with status := JobState.processing, progress := 10 })] := by
        rw [procAdd, if_neg (by simp [hidproc])]
      refine ⟨hnrest, ?_, ?_⟩
      · show ((procAdd id _ s.processing).map Prod.fst).Nodup
        rw [hproc, List.map_append]
        refine List.Nodup.append hnp (List.nodup_singleton id) ?_
        intro x hx hx'
        have hxid : x = id := by simpa using hx'
        subst hxid
        exact not_key_of_any_eq_false hidproc hx
      · intro x hx
        show (procAdd id _ s.processing).any (fun p => p.1 == x) = false
        rw [hproc, List.any_append]
        have h1 : inProcessing s x = false := hqp x (List.mem_cons_of_mem id hx)
        rw [inProcessing] at h1
        have h2 : (id == x) = false := by
          have hne : id ≠ x := fun he => hidrest (he ▸ hx)
          simpa using hne
        simp [h1, h2]
  · rw [if_neg hcan]
    exact ⟨hnq, hnp, hqp⟩

theorem QInv_addJob (s : QState) (id path : String) (h : QInv s)
    (hfreshq : id ∉ s.queue) (hfreshp : inProcessing s id = false) :
    QInv (addJob id path s) := by
  rcases h with ⟨hnq, hnp, hqp⟩
  apply QInv_processNextStart
  refine ⟨?_, hnp, ?_⟩
  · simpa using List.Nodup.append hnq (List.nodup_singleton id)
      (by intro x hx hx'; rw [List.mem_singleton] at hx'; exact hfreshq (hx' ▸ hx))
  · intro x hx
    rcases List.mem_append.mp hx with hx | hx
    · exact hqp x hx
    · rw [List.mem_singleton] at hx
      exact hx ▸ hfreshp

theorem QInv_processNextFinish (s : QState) (id : String) (outcome : PipelineOutcome)
    (h : QInv s) : QInv (processNextFinish id outcome s) := by
  rcases h with ⟨hnq, hnp, hqp⟩
  rw [processNextFinish]
  rcases hfind : (s.processing.find? (fun p => p.1 == id)).map (fun p => p.2) with _ | j
  · simp only [hfind]
    exact ⟨hnq, hnp, hqp⟩
  simp only [hfind]
  rcases Option.map_eq_some'.mp hfind with ⟨q, hq, hqj⟩
  have hqmem : q ∈ s.processing := List.mem_of_find?_eq_some hq
  have hqpred := List.find?_some hq
  have hidproc : inProcessing s id = true :=
    List.any_eq_true.mpr ⟨q, hqmem, hqpred⟩
  have hidnq : id ∉ s.queue := by
    intro hmem
    rw [hqp id hmem] at hidproc
    cases hidproc
  have hnd' : ((procDelete id s.processing).map Prod.fst).Nodup :=
    ((s.processing.eraseP_sublist).map Prod.fst).nodup hnp
  have hself : (procDelete id s.processing).any (fun p => p.1 == id) = false :=
    any_eraseP_key id s.processing hnp
  have hother : ∀ x ∈ s.queue,
      (procDelete id s.processing).any (fun p => p.1 == x) = false := by
    intro x hx
    rcases hb : (procDelete id s.processing).any (fun p => p.1 == x) with _ | _
    · rfl
    · have hany := any_of_any_eraseP hb
      have h2 := hqp x hx
      rw [inProcessing] at h2
      rw [h2] at hany
      cases hany
  rcases outcome with r | msg
  · exact ⟨hnq, hnd', hother⟩
  · dsimp only
    by_cases hperm : isProcessingError msg = true
    · rw [if_pos hperm]
      exact ⟨hnq, hnd', hother⟩
    · rw [if_neg hperm]
      by_cases hret : j.retries < 1
      · rw [if_pos hret]
        refine ⟨?_, hnd', ?_⟩
        · simpa using List.Nodup.append hnq (List.nodup_singleton id)
            (by intro x hx hx'; rw [List.mem_singleton] at hx'; exact hidnq (hx' ▸ hx))
        · intro x hx
          rcases List.mem_append.mp hx with hx | hx
          · exact hother x hx
          · rw [List.mem_singleton] at hx
            exact hx ▸ hself
      · rw [if_neg hret]
        exact ⟨hnq, hnd', hother⟩

theorem QInv_cancelJob (s : QState) (id : String) (h : QInv s) : QInv (cancelJob id s) := by
  rcases h with ⟨hnq, hnp, hqp⟩
  rw [cancelJob]
  rcases hl : lookupJob s id with _ | j
  · simp only [hl]
    exact ⟨hnq, hnp, hqp⟩
  simp only [hl]
  by_cases hst : j.status = JobState.processing
  · rw [if_pos hst]
    exact ⟨hnq.erase id, hnp, fun x hx => hqp x (List.mem_of_mem_erase hx)⟩
  · rw [if_neg hst]
    exact ⟨hnq.erase id, hnp, fun x hx => hqp x (List.mem_of_mem_erase hx)⟩

/-- Reachability of a queue state through the service operations, with
submissions restricted to fresh ids (ids currently in neither the
pending queue nor the active set). -/
inductive Reachable : QState → Prop
  | init : ∀ c, Reachable (initState c)
  | submit : ∀ (s : QState) (id path : String), Reachable s → id ∉ s.queue →
      inProcessing s id = false → Reachable (addJob id path s)
  | advance : ∀ s, Reachable s → Reachable (processNextStart s)
  | complete : ∀ (s : QState) (id : String) (outcome : PipelineOutcome),
      Reachable s → Reachable (processNextFinish id outcome s)
  | cancel : ∀ (s : QState) (id : String), Reachable s → Reachable (cancelJob id s)

/-- Reachability with no freshness restriction: any id may be
(re-)submitted at any time, exactly as `addJob` allows. -/
inductive ReachableAny : QState → Prop
  | init : ∀ c, ReachableAny (initState c)
  | submit : ∀ (s : QState) (id path : String), ReachableAny s →
      ReachableAny (addJob id path s)
  | advance : ∀ s, ReachableAny s → ReachableAny (processNextStart s)
  | complete : ∀ (s : QState) (id : String) (outcome : PipelineOutcome),
      ReachableAny s → ReachableAny (processNextFinish id outcome s)
  | cancel : ∀ (s : QState) (id : String), ReachableAny s → ReachableAny (cancelJob id s)

theorem reachable_QInv (s : QState) (h : Reachable s) : QInv s := by
  induction h with
  | init c => exact QInv_initState c
  | submit s id path _ hq hp ih => exact QInv_addJob s id path ih hq hp
  | advance s _ ih => exact QInv_processNextStart s ih
  | complete s id outcome _ ih => exact QInv_processNextFinish s id outcome ih
  | cancel s id _ ih => exact QInv_cancelJob s id ih

/-- C1 (amended): in every state reachable through `addJob` (restricted
to ids that are currently in neither the pending queue nor the active
set), `processNext` (start and finish steps, including the transient
re-queue branch), and `cancelJob`, no job id is a member of both the
pending queue and the active processing set. -/
theorem jobId_exclusive (s : QState) (hs : Reachable s) :
    ∀ id : String, ¬ (id ∈ s.queue ∧ inProcessing s id = true) := by
  rintro id ⟨hq, hp⟩
  rcases reachable_QInv s hs with ⟨_, _, hqp⟩
  rw [hqp id hq] at hp
  cases hp

theorem jobId_exclusive_witness :
    ¬ ("a" ∈ (addJob "a" "a.mp4" (initState 2)).queue
        ∧ inProcessing (addJob "a" "a.mp4" (initState 2)) "a" = true) :=
  jobId_exclusive (addJob "a" "a.mp4" (initState 2))
    (Reachable.submit (initState 2) "a" "a.mp4" (Reachable.init 2) (by decide) (by decide))
    "a"

/-- C1 counterexample: starting from an empty scheduler with ceiling 2,
submit `a`, submit `b` (both start processing and stay active), then
re-submit `a` while its prior job is still active: `addJob` pushes `a`
onto the queue while `a` is still in the processing set, so the
exclusivity invariant does not survive re-submission of an active id. -/
theorem jobId_exclusive_counterexample :
    ¬ (∀ s : QState, ReachableAny s → ∀ id : String,
        ¬ (id ∈ s.queue ∧ inProcessing s id = true)) := by
  intro h
  have hreach : ReachableAny
      (addJob "a" "a.mp4" (addJob "b" "b.mp4" (addJob "a" "a.mp4" (initState 2)))) :=
    ReachableAny.submit _ "a" "a.mp4"
      (ReachableAny.submit _ "b" "b.mp4"
        (ReachableAny.submit _ "a" "a.mp4" (ReachableAny.init 2)))
  exact h _ hreach "a" (by decide)

/-- Job record as created by `addJob`, before any start. -/
def queuedJob (id path : String) : Job :=
  { inputPath := path, outputPath := id ++ "_cut.mp4", status := JobState.queued,
    progress := 0, retries := 0, error := none, result := none }

/-- Job record right after `processNext` has started it. -/
def startedJob (id path : String) : Job :=
  { inputPath := path, outputPath := id ++ "_cut.mp4", status := JobState.processing,
    progress := 10, retries := 0, error := none, result := none }

/-- Submit the ids in order, each with its input path. -/
def submitAll (path : String → String) (ids : List String) (s : QState) : QState :=
  ids.foldl (fun t id => addJob id (path id) t) s

/-- State of the scheduler (ceiling `C`) after submitting the distinct
ids `done` to an empty scheduler with no completions: the first `C` ids
are active and processing, the remainder are pending in order. -/
def filledState (path : String → String) (C : Nat) (done : List String) : QState :=
  { jobs := (done.take C).map (fun id => (id, startedJob id (path id)))
      ++ (done.drop C).map (fun id => (id, queuedJob id (path id))),
    queue := done.drop C,
    processing := (done.take C).map (fun id => (id, startedJob id (path id))),
    maxConcurrentJobs := C }

theorem key_mem_of_mem_pairMap {f : String → Job} {l : List String} {p : String × Job}
    (hp : p ∈ l.map (fun id => (id, f id))) : p.1 ∈ l := by
  rcases List.mem_map.mp hp with ⟨x, hx, hxp⟩
  rw [← hxp]
  exact hx

theorem filledState_jobs_keys (path : String → String) (C : Nat) (done : List String) :
    ∀ p ∈ (filledState path C done).jobs, p.1 ∈ done := by
  intro p hp
  rcases List.mem_append.mp hp with hp | hp
  · exact List.take_subset C done (key_mem_of_mem_pairMap hp)
  · exact List.drop_subset C done (key_mem_of_mem_pairMap hp)

theorem eraseP_key_of_not_mem {m : List (String × Job)} {id : String}
    (h : ∀ p ∈ m, p.1 ≠ id) : m.eraseP (fun p => p.1 == id) = m :=
  List.eraseP_of_forall_not (fun p hp => by simp [h p hp])

theorem find?_key_of_not_mem {m : List (String × Job)} {id : String}
    (h : ∀ p ∈ m, p.1 ≠ id) : m.find? (fun p => p.1 == id) = none :=
  List.find?_eq_none.mpr (fun p hp => by simp [h p hp])

theorem any_key_of_not_mem {m : List (String × Job)} {id : String}
    (h : ∀ p ∈ m, p.1 ≠ id) : m.any (fun p => p.1 == id) = false := by
  rw [List.any_eq_false]
  intro p hp
  simp [h p hp]

theorem mapReplace_of_not_mem {m : List (String × Job)} {id : String} (j : Job)
    (h : ∀ p ∈ m, p.1 ≠ id) : mapReplace id j m = m := by
  rw [mapReplace]
  rw [List.map_congr_left (g := fun p => p) (fun p hp => by simp [h p hp])]
  exact List.map_id' m

theorem processNextStart_go (jobs : List (String × Job)) (id : String) (rest : List String)
    (processing : List (String × Job)) (C : Nat) (j : Job)
    (hcan : processing.length < C)
    (hlook : (jobs.find? (fun p => p.1 == id)).map (fun p => p.2) = some j) :
    processNextStart ⟨jobs, id :: rest, processing, C⟩ =
      ⟨mapReplace id { j with status := JobState.processing, progress := 10 } jobs, rest,
        procAdd id { j with status := JobState.processing, progress := 10 } processing, C⟩ := by
  rw [processNextStart, if_pos (by rw [canAcceptNewJob]; simpa using hcan)]
  dsimp only
  have hl : lookupJob ⟨jobs, id :: rest, processing, C⟩ id = some j := hlook
  rw [hl]

theorem processNextStart_blocked (jobs : List (String × Job)) (queue : List String)
    (processing : List (String × Job)) (C : Nat)
    (hcan : ¬ processing.length < C) :
    processNextStart ⟨jobs, queue, processing, C⟩ = ⟨jobs, queue, processing, C⟩ := by
  rw [processNextStart, if_neg (by rw [canAcceptNewJob]; simpa using hcan)]

theorem addJob_filledState (path : String → String) (C : Nat) (done : List String)
    (id : String) (hid : id ∉ done) :
    addJob id (path id) (filledState path C done) = filledState path C (done ++ [id]) := by
  have hkeys : ∀ p ∈ (filledState path C done).jobs, p.1 ≠ id :=
    fun p hp he => hid (he ▸ filledState_jobs_keys path C done p hp)
  have hpkeys : ∀ p ∈ (filledState path C done).processing, p.1 ≠ id :=
    fun p hp he => hid (he ▸ List.take_subset C done (key_mem_of_mem_pairMap hp))
  have hset : mapSet id (queuedJob id (path id)) (filledState path C done).jobs =
      (filledState path C done).jobs ++ [(id, queuedJob id (path id))] := by
    rw [mapSet, eraseP_key_of_not_mem hkeys]
  show processNextStart { filledState path C done with
      jobs := mapSet id (queuedJob id (path id)) (filledState path C done).jobs,
      queue := (filledState path C done).queue ++ [id] } = filledState path C (done ++ [id])
  have hdonekeys : ∀ p ∈ done.map (fun i => (i, startedJob i (path i))), p.1 ≠ id := by
    intro p hp he
    apply hid
    rw [← he]
    exact key_mem_of_mem_pairMap hp
  by_cases hlt : done.length < C
  · have hdrop : done.drop C = [] := List.drop_eq_nil_of_le (Nat.le_of_lt hlt)
    have htake : done.take C = done := List.take_of_length_le (Nat.le_of_lt hlt)
    have hmid : ({ filledState path C done with
        jobs := mapSet id (queuedJob id (path id)) (filledState path C done).jobs,
        queue := (filledState path C done).queue ++ [id] } : QState) =
        ⟨(done.map (fun i => (i, startedJob i (path i)))) ++ [(id, queuedJob id (path id))],
          id :: [], done.map (fun i => (i, startedJob i (path i))), C⟩ := by
      rw [hset]
      simp [filledState, htake, hdrop]
    rw [hmid]
    rw [processNextStart_go _ id [] _ C (queuedJob id (path id))
      (by rw [List.length_map]; exact hlt)
      (by rw [List.find?_append, find?_key_of_not_mem hdonekeys]; simp)]
    have hstart : ({ queuedJob id (path id) with
        status := JobState.processing, progress := 10 } : Job) = startedJob id (path id) := rfl
    rw [hstart]
    have hrepl : mapReplace id (startedJob id (path id))
        ((done.map (fun i => (i, startedJob i (path i)))) ++ [(id, queuedJob id (path id))]) =
        (done.map (fun i => (i, startedJob i (path i)))) ++ [(id, startedJob id (path id))] := by
      rw [mapReplace, List.map_append, ← mapReplace, mapReplace_of_not_mem _ hdonekeys]
      simp [mapReplace]
    have hproc : procAdd id (startedJob id (path id))
        (done.map (fun i => (i, startedJob i (path i)))) =
        (done.map (fun i => (i, startedJob i (path i)))) ++ [(id, startedJob id (path id))] := by
      rw [procAdd, if_neg (by simp [any_key_of_not_mem hdonekeys])]
    rw [hrepl, hproc]
    have htake' : (done ++ [id]).take C = done ++ [id] := by
      refine List.take_of_length_le ?_
      simp only [List.length_append, List.length_singleton]
      omega
    have hdrop' : (done ++ [id]).drop C = [] := by
      refine List.drop_eq_nil_of_le ?_
      simp only [List.length_append, List.length_singleton]
      omega
    simp [filledState, htake', hdrop']
  · have hge : C ≤ done.length := Nat.le_of_not_lt hlt
    have hmid : ({ filledState path C done with
        jobs := mapSet id (queuedJob id (path id)) (filledState path C done).jobs,
        queue := (filledState path C done).queue ++ [id] } : QState) =
        ⟨((done.take C).map (fun i => (i, startedJob i (path i)))
            ++ (done.drop C).map (fun i => (i, queuedJob i (path i))))
            ++ [(id, queuedJob id (path id))],
          done.drop C ++ [id], (done.take C).map (fun i => (i, startedJob i (path i))), C⟩ := by
      rw [hset]
      rfl
    rw [hmid]
    rw [processNextStart_blocked _ _ _ C
      (by rw [List.length_map, List.length_take]; omega)]
    have htake' : (done ++ [id]).take C = done.take C :=
      List.take_append_of_le_length hge
    have hdrop' : (done ++ [id]).drop C = done.drop C ++ [id] :=
      List.drop_append_of_le_length hge
    simp [filledState, htake', hdrop', List.append_assoc]

theorem submitAll_filledState (path : String → String) (C : Nat) :
    ∀ (ids done : List String), (done ++ ids).Nodup →
      submitAll path ids (filledState path C done) = filledState path C (done ++ ids)
  | [], done => by
    intro _
    simp [submitAll]
  | id :: ids, done => by
    intro hnd
    have hid : id ∉ done := by
      rcases List.nodup_append.mp hnd with ⟨_, _, hdisj⟩
      intro hmem
      exact hdisj hmem (List.mem_cons_self id ids)
    rw [submitAll, List.foldl_cons, ← submitAll, addJob_filledState path C done id hid,
      submitAll_filledState path C ids (done ++ [id]) (by simpa using hnd)]
    simp

theorem countStatus_filledState (path : String → String) (C : Nat) (done : List String) :
    countStatus (filledState path C done) JobState.processing = (done.take C).length
    ∧ countStatus (filledState path C done) JobState.queued = (done.drop C).length := by
  have hs1 : List.countP (fun p : String × Job => p.2.status == JobState.processing)
      ((done.take C).map (fun i => (i, startedJob i (path i)))) = (done.take C).length := by
    rw [← List.length_map (done.take C) (fun i => (i, startedJob i (path i)))]
    rw [List.countP_eq_length]
    intro p hp
    rcases List.mem_map.mp hp with ⟨x, _, hxp⟩
    simp [← hxp, startedJob]
  have hs2 : List.countP (fun p : String × Job => p.2.status == JobState.queued)
      ((done.take C).map (fun i => (i, startedJob i (path i)))) = 0 := by
    rw [List.countP_eq_zero]
    intro p hp
    rcases List.mem_map.mp hp with ⟨x, _, hxp⟩
    simp [← hxp, startedJob]
  have hq1 : List.countP (fun p : String × Job => p.2.status == JobState.queued)
      ((done.drop C).map (fun i => (i, queuedJob i (path i)))) = (done.drop C).length := by
    rw [← List.length_map (done.drop C) (fun i => (i, queuedJob i (path i)))]
    rw [List.countP_eq_length]
    intro p hp
    rcases List.mem_map.mp hp with ⟨x, _, hxp⟩
    simp [← hxp, queuedJob]
  have hq2 : List.countP (fun p : String × Job => p.2.status == JobState.processing)
      ((done.drop C).map (fun i => (i, queuedJob i (path i)))) = 0 := by
    rw [List.countP_eq_zero]
    intro p hp
    rcases List.mem_map.mp hp with ⟨x, _, hxp⟩
    simp [← hxp, queuedJob]
  constructor
  · show (((done.take C).map (fun i => (i, startedJob i (path i)))
        ++ (done.drop C).map (fun i => (i, queuedJob i (path i)))).countP
        (fun p => p.2.status == JobState.processing)) = _
    rw [List.countP_append, hs1, hq2]
    rw [Nat.add_zero]
  · show (((done.take C).map (fun i => (i, startedJob i (path i)))
        ++ (done.drop C).map (fun i => (i, queuedJob i (path i)))).countP
        (fun p => p.2.status == JobState.queued)) = _
    rw [List.countP_append, hs2, hq1]
    rw [Nat.zero_add]

/-- C7: `canAcceptNewJob` holds exactly when the active set is strictly
below the concurrency ceiling; consequently, submitting `C + 1` distinct
jobs to an empty scheduler with ceiling `C`, with no completions yet,
leaves exactly `C` jobs in the `processing` state and the remaining one
in the `queued` state; in particular with the default ceiling 2, three
submissions leave exactly 2 processing and 1 queued. -/
theorem canAcceptNewJob_ceiling :
    (∀ s : QState, canAcceptNewJob s = true ↔ s.processing.length < s.maxConcurrentJobs)
    ∧ (∀ (C : Nat) (path : String → String) (ids : List String), ids.Nodup →
        ids.length = C + 1 →
        countStatus (submitAll path ids (initState C)) JobState.processing = C
        ∧ countStatus (submitAll path ids (initState C)) JobState.queued = 1)
    ∧ countStatus (addJob "c" "c.mp4" (addJob "b" "b.mp4" (addJob "a" "a.mp4" (initState 2))))
        JobState.processing = 2
    ∧ countStatus (addJob "c" "c.mp4" (addJob "b" "b.mp4" (addJob "a" "a.mp4" (initState 2))))
        JobState.queued = 1 := by
  refine ⟨fun s => ?_, ?_, by decide, by decide⟩
  · rw [canAcceptNewJob]
    exact decide_eq_true_iff
  · intro C path ids hnd hlen
    have hinit : filledState path C [] = initState C := by
      simp [filledState, initState]
    have h := submitAll_filledState path C ids [] (by simpa using hnd)
    rw [hinit, List.nil_append] at h
    rw [h]
    rcases countStatus_filledState path C ids with ⟨h1, h2⟩
    constructor
    · rw [h1, List.length_take]
      omega
    · rw [h2, List.length_drop]
      omega

theorem canAcceptNewJob_ceiling_witness :
    countStatus (submitAll (fun id => id ++ ".mp4") ["a", "b", "c"] (initState 2))
      JobState.processing = 2
    ∧ countStatus (submitAll (fun id => id ++ ".mp4") ["a", "b", "c"] (initState 2))
      JobState.queued = 1 :=
  canAcceptNewJob_ceiling.2.1 2 (fun id => id ++ ".mp4") ["a", "b", "c"]
    (by decide) (by decide)

theorem find?_mapReplace (id : String) (j' : Job) (q : String × Job) :
    ∀ (m : List (String × Job)), m.find? (fun p => p.1 == id) = some q →
      (mapReplace id j' m).find? (fun p => p.1 == id) = some (id, j')
  | [], h => by cases h
  | (k, x) :: t, h => by
    rw [mapReplace, List.map_cons]
    by_cases hk : (k == id) = true
    · rw [if_pos (by simpa using hk)]
      exact List.find?_cons_of_pos _ (by simp)
    · rw [if_neg (by simpa using hk)]
      rw [List.find?_cons_of_neg _ (by simpa using hk)]
      rw [List.find?_cons_of_neg _ (by simpa using hk)] at h
      exact find?_mapReplace id j' q t h

theorem lookupJob_mapReplace (id : String) (j' : Job) (q : String × Job)
    (m : List (String × Job)) (h : m.find? (fun p => p.1 == id) = some q) :
    ((mapReplace id j' m).find? (fun p => p.1 == id)).map (fun p => p.2) = some j' := by
  rw [find?_mapReplace id j' q m h]
  rfl

theorem processNextFinish_transient_requeue (s : QState) (id : String) (j : Job) (msg : String)
    (hcap : (s.processing.find? (fun p => p.1 == id)).map (fun p => p.2) = some j)
    (hmap : lookupJob s id = some j)
    (htrans : isProcessingError msg = false)
    (hret : j.retries < 1) :
    lookupJob (processNextFinish id (PipelineOutcome.failure msg) s) id =
      some { j with retries := j.retries + 1, status := JobState.queued, progress := 0 }
    ∧ (processNextFinish id (PipelineOutcome.failure msg) s).queue = s.queue ++ [id] := by
  rw [processNextFinish, hcap]
  dsimp only
  rw [if_neg (by simp [htrans]), if_pos hret]
  rcases Option.map_eq_some'.mp hmap with ⟨q, hq, _⟩
  exact ⟨lookupJob_mapReplace id _ q s.jobs hq, rfl⟩

theorem processNextFinish_transient_exhausted (s : QState) (id : String) (j : Job) (msg : String)
    (hcap : (s.processing.find? (fun p => p.1 == id)).map (fun p => p.2) = some j)
    (hmap : lookupJob s id = some j)
    (htrans : isProcessingError msg = false)
    (hret : ¬ j.retries < 1) :
    lookupJob (processNextFinish id (PipelineOutcome.failure msg) s) id =
      some { j with status := JobState.failed, error := some maxRetriesMsg }
    ∧ (processNextFinish id (PipelineOutcome.failure msg) s).queue = s.queue := by
  rw [processNextFinish, hcap]
  dsimp only
  rw [if_neg (by simp [htrans]), if_neg hret]
  rcases Option.map_eq_some'.mp hmap with ⟨q, hq, _⟩
  exact ⟨lookupJob_mapReplace id _ q s.jobs hq, rfl⟩

/-- First transient failure of a fresh job `a` (retry budget 1). -/
def retryScenario1 : QState :=
  processNextFinish "a" (PipelineOutcome.failure "ECONNRESET") (addJob "a" "a.mp4" (initState 2))

/-- The re-queued job is started again and fails transiently a second
time. -/
def retryScenario2 : QState :=
  processNextFinish "a" (PipelineOutcome.failure "ECONNRESET") (processNextStart retryScenario1)

/-- C5: when a job's pipeline fails with an error text matching no
permanent-failure marker, `processNext` re-queues it if the retry count
is below the budget of 1 (retry count incremented, progress reset to 0,
state back to `queued`, id re-appended at the queue tail) and otherwise
fails it with the generic failed-after-multiple-attempts message; in
the concrete two-failure run, the first transient failure leaves the
job `queued` and the second leaves it `failed`, not `queued`. -/
theorem transient_retry_policy (s : QState) (id : String) (j : Job) (msg : String)
    (hcap : (s.processing.find? (fun p => p.1 == id)).map (fun p => p.2) = some j)
    (hmap : lookupJob s id = some j)
    (htrans : isProcessingError msg = false) :
    (j.retries < 1 →
      lookupJob (processNextFinish id (PipelineOutcome.failure msg) s) id =
        some { j with retries := j.retries + 1, status := JobState.queued, progress := 0 }
      ∧ (processNextFinish id (PipelineOutcome.failure msg) s).queue = s.queue ++ [id])
    ∧ (¬ j.retries < 1 →
      lookupJob (processNextFinish id (PipelineOutcome.failure msg) s) id =
        some { j with status := JobState.failed, error := some maxRetriesMsg }
      ∧ (processNextFinish id (PipelineOutcome.failure msg) s).queue = s.queue)
    ∧ (lookupJob retryScenario1 "a").map Job.status = some JobState.queued
    ∧ (lookupJob retryScenario2 "a").map Job.status = some JobState.failed
    ∧ (lookupJob retryScenario2 "a").map Job.error = some (some maxRetriesMsg) := by
  refine ⟨fun hret => processNextFinish_transient_requeue s id j msg hcap hmap htrans hret,
    fun hret => processNextFinish_transient_exhausted s id j msg hcap hmap htrans hret,
    by decide, by decide, by decide⟩

theorem transient_retry_policy_witness :
    lookupJob retryScenario1 "a" =
      some { inputPath := "a.mp4", outputPath := "a_cut.mp4", status := JobState.queued,
             progress := 0, retries := 1, error := none, result := none }
    ∧ retryScenario1.queue = [] ++ ["a"] := by
  have h := transient_retry_policy (addJob "a" "a.mp4" (initState 2)) "a"
    { inputPath := "a.mp4", outputPath := "a_cut.mp4", status := JobState.processing,
      progress := 10, retries := 0, error := none, result := none }
    "ECONNRESET" (by decide) (by decide) (by decide)
  exact h.1 (by decide)

/-- C6: an engine failure during the detection phase whose diagnostic
text matches no permanent-failure marker is treated as transient on a
fresh job (attempt 1): `processNext` re-queues the job (state `queued`,
id back at the queue tail) rather than immediately marking it failed. -/
theorem detection_failure_requeued (s : QState) (id : String) (j : Job) (e : String)
    (hcap : (s.processing.find? (fun p => p.1 == id)).map (fun p => p.2) = some j)
    (hmap : lookupJob s id = some j)
    (hfresh : j.retries = 0)
    (hnomarker : isProcessingError e = false) :
    (lookupJob (processNextFinish id (PipelineOutcome.failure e) s) id).map Job.status =
      some JobState.queued
    ∧ (lookupJob (processNextFinish id (PipelineOutcome.failure e) s) id).map Job.status ≠
      some JobState.failed
    ∧ (processNextFinish id (PipelineOutcome.failure e) s).queue = s.queue ++ [id] := by
  have h := processNextFinish_transient_requeue s id j e hcap hmap hnomarker (by omega)
  rw [h.1]
  exact ⟨rfl, by simp, h.2⟩

theorem detection_failure_requeued_witness :
    (lookupJob (processNextFinish "a" (PipelineOutcome.failure "spawn ffmpeg ENOENT")
        (addJob "a" "a.mp4" (initState 2))) "a").map Job.status = some JobState.queued
    ∧ (processNextFinish "a" (PipelineOutcome.failure "spawn ffmpeg ENOENT")
        (addJob "a" "a.mp4" (initState 2))).queue = [] ++ ["a"] := by
  have h := detection_failure_requeued (addJob "a" "a.mp4" (initState 2)) "a"
    { inputPath := "a.mp4", outputPath := "a_cut.mp4", status := JobState.processing,
      progress := 10, retries := 0, error := none, result := none }
    "spawn ffmpeg ENOENT" (by decide) (by decide) (by decide) (by decide)
  exact ⟨h.1, h.2.2⟩

/-- Action taken by `removeSilences`: a pass-through copy reporting the
given result, or a re-encode of the given keep segments. -/
inductive RemoveOutcome
  | copy (result : ProcessingResult)
  | encode (segments : List Segment)
deriving Repr, DecidableEq

/-- Decision logic of `removeSilences` (video_processing_service.ts,
lines 125-161): with no silences, copy the file and report no change and
zero silences removed; otherwise derive the keep segments; when none
remain (the entire video is classified silent), copy the file and report
no change; otherwise re-encode exactly the keep segments.  The encode
branch's final numbers come from re-probing the produced file
(subprocess I/O) and are not modelled. -/
def removeSilencesPlan (originalDuration : ℚ) (silences : List SilenceInterval) : RemoveOutcome :=
  if silences.length = 0 then
    RemoveOutcome.copy ⟨originalDuration, originalDuration, 0, 0, 0⟩
  else
    let segments := buildKeepSegments silences originalDuration
    if segments.length = 0 then
      RemoveOutcome.copy ⟨originalDuration, originalDuration, 0, 0, silences.length⟩
    else
      RemoveOutcome.encode segments

/-- C8: whenever the silence list is empty or the derived keep-segment
list is empty, `removeSilences` performs a pass-through copy of the
input and reports `timeSaved = 0`, `percentageSaved = 0`, and
`finalDuration = originalDuration`; the empty-keep-segment case is a
copy ("no change"), never a zero-length encode or an error. -/
theorem removeSilences_passThrough (D : ℚ) (sil : List SilenceInterval)
    (h : sil = [] ∨ buildKeepSegments sil D = []) :
    ∃ r : ProcessingResult, removeSilencesPlan D sil = RemoveOutcome.copy r
      ∧ r.timeSaved = 0 ∧ r.percentageSaved = 0
      ∧ r.finalDuration = r.originalDuration ∧ r.originalDuration = D := by
  by_cases hnil : sil = []
  · subst hnil
    exact ⟨⟨D, D, 0, 0, 0⟩, rfl, rfl, rfl, rfl, rfl⟩
  · rcases h with h | h
    · exact absurd h hnil
    · refine ⟨⟨D, D, 0, 0, sil.length⟩, ?_, rfl, rfl, rfl, rfl⟩
      rw [removeSilencesPlan, if_neg (by simpa [List.length_eq_zero] using hnil)]
      dsimp only
      rw [if_pos (by rw [h]; rfl)]

theorem removeSilences_passThrough_witness :
    ∃ r : ProcessingResult, removeSilencesPlan 5 [⟨0, 10, 10⟩] = RemoveOutcome.copy r
      ∧ r.timeSaved = 0 ∧ r.percentageSaved = 0
      ∧ r.finalDuration = r.originalDuration ∧ r.originalDuration = 5 :=
  removeSilences_passThrough 5 [⟨0, 10, 10⟩]
    (Or.inr (by norm_num [buildKeepSegments, buildKeepGo]))

theorem specRuns_chunks (g : ℚ) :
    ∀ (rest : List SilenceInterval) (a : SilenceInterval),
      List.Chain' ovO (a :: rest) →
      ∀ p ∈ specRuns g a rest,
        List.Chain' ovO (p.1 :: p.2) ∧ ∀ x ∈ p.1 :: p.2, x ∈ a :: rest
  | [], a => by
    intro _ p hp
    rw [specRuns, List.mem_singleton] at hp
    subst hp
    exact ⟨List.chain'_singleton a, fun x hx => hx⟩
  | b :: rest, a => by
    intro hc p hp
    rw [List.chain'_cons] at hc
    rw [specRuns] at hp
    by_cases hgap : b.start - a.stop < g
    · rw [if_pos hgap] at hp
      rcases specRuns_shape g b rest with ⟨r, t, hshape⟩
      rw [hshape] at hp
      rw [consHead] at hp
      rcases List.mem_cons.mp hp with rfl | hp
      · have ih := specRuns_chunks g rest b hc.2 (b, r) (hshape ▸ List.mem_cons_self _ t)
        refine ⟨List.chain'_cons.mpr ⟨hc.1, ih.1⟩, ?_⟩
        intro x hx
        rcases List.mem_cons.mp hx with rfl | hx
        · exact List.mem_cons_self x _
        · exact List.mem_cons_of_mem a (ih.2 x hx)
      · have ih := specRuns_chunks g rest b hc.2 p (hshape ▸ List.mem_cons_of_mem _ hp)
        exact ⟨ih.1, fun x hx => List.mem_cons_of_mem a (ih.2 x hx)⟩
    · rw [if_neg hgap] at hp
      rcases List.mem_cons.mp hp with rfl | hp
      · exact ⟨List.chain'_singleton a, by simp⟩
      · have ih := specRuns_chunks g rest b hc.2 p hp
        exact ⟨ih.1, fun x hx => List.mem_cons_of_mem a (ih.2 x hx)⟩

theorem chain_getLastD_stop :
    ∀ (l : List SilenceInterval) (x : SilenceInterval),
      List.Chain' ovO (x :: l) → (∀ y ∈ x :: l, y.start < y.stop) → l ≠ [] →
      x.stop < (l.getLastD x).stop
  | [], _ => fun _ _ hne => absurd rfl hne
  | [y], x => fun hc hwf _ => by
    rw [List.chain'_cons] at hc
    have h1 : x.stop ≤ y.start := hc.1
    have h2 : y.start < y.stop := hwf y (by simp)
    show x.stop < y.stop
    linarith
  | y :: z :: t, x => fun hc hwf _ => by
    rw [List.chain'_cons] at hc
    have ih := chain_getLastD_stop (z :: t) y hc.2
      (fun w hw => hwf w (List.mem_cons_of_mem x hw)) (by simp)
    have h1 : x.stop ≤ y.start := hc.1
    have h2 : y.start < y.stop := hwf y (by simp)
    show x.stop < ((z :: t).getLastD y).stop
    linarith

/-- Rewrite the `duration` field of an interval, leaving `start` and
`stop` unchanged. -/
def setDuration (f : SilenceInterval → ℚ) (x : SilenceInterval) : SilenceInterval :=
  { x with duration := f x }

theorem orderedInsert_map_setDuration (r : SilenceInterval → SilenceInterval → Prop)
    [DecidableRel r] (f : SilenceInterval → ℚ)
    (hco : ∀ x y, r (setDuration f x) (setDuration f y) ↔ r x y) (a : SilenceInterval) :
    ∀ m : List SilenceInterval,
      List.orderedInsert r (setDuration f a) (m.map (setDuration f)) =
        (List.orderedInsert r a m).map (setDuration f)
  | [] => rfl
  | b :: m => by
    rw [List.map_cons, List.orderedInsert, List.orderedInsert]
    by_cases h : r a b
    · rw [if_pos h, if_pos ((hco a b).mpr h), List.map_cons, List.map_cons]
    · rw [if_neg h, if_neg (fun hh => h ((hco a b).mp hh)), List.map_cons,
        orderedInsert_map_setDuration r f hco a m]

theorem insertionSort_map_setDuration (r : SilenceInterval → SilenceInterval → Prop)
    [DecidableRel r] (f : SilenceInterval → ℚ)
    (hco : ∀ x y, r (setDuration f x) (setDuration f y) ↔ r x y) :
    ∀ l : List SilenceInterval,
      List.insertionSort r (l.map (setDuration f)) =
        (List.insertionSort r l).map (setDuration f)
  | [] => rfl
  | a :: l => by
    rw [List.map_cons, List.insertionSort, List.insertionSort,
      insertionSort_map_setDuration r f hco l, orderedInsert_map_setDuration r f hco a]

/-- C10: `mergeSilences` never writes the `duration` field: every output
interval carries the `start` and `duration` field of the first interval
of its merged run (the output is `collapseRun` over the run
decomposition `specRuns`); whenever a run coalesces two or more
intervals, the output interval's `duration` field is strictly smaller
than its `end - start`; and the downstream cap step is unaffected
because it sorts by `end - start`, not by the `duration` field:
rewriting `duration` arbitrarily commutes with `capSilences`. -/
theorem mergeSilences_duration_field (g : ℚ) (a : SilenceInterval)
    (rest : List SilenceInterval)
    (hov : List.Chain' ovO (a :: rest))
    (hwf : ∀ x ∈ a :: rest, x.start < x.stop)
    (hdur : ∀ x ∈ a :: rest, x.duration = x.stop - x.start) :
    mergeSilences (a :: rest) g = (specRuns g a rest).map collapseRun
    ∧ (∀ p ∈ specRuns g a rest, (collapseRun p).start = p.1.start
        ∧ (collapseRun p).duration = p.1.duration)
    ∧ (∀ p ∈ specRuns g a rest, p.2 ≠ [] →
        (collapseRun p).duration < (collapseRun p).stop - (collapseRun p).start)
    ∧ (∀ (l : List SilenceInterval) (f : SilenceInterval → ℚ),
        capSilences (l.map (setDuration f)) = (capSilences l).map (setDuration f)) := by
  refine ⟨mergeGo_eq_spec g rest a, fun p _ => ⟨rfl, rfl⟩, ?_, ?_⟩
  · intro p hp hne
    have hch := specRuns_chunks g rest a hov p hp
    have hlast := chain_getLastD_stop p.2 p.1 hch.1 (fun y hy => hwf y (hch.2 y hy)) hne
    have hd : p.1.duration = p.1.stop - p.1.start := hdur p.1 (hch.2 p.1 (by simp))
    show p.1.duration < (p.2.getLastD p.1).stop - p.1.start
    rw [hd]
    have h1 : p.1.start < p.1.stop := hwf p.1 (hch.2 p.1 (by simp))
    linarith
  · intro l f
    rw [capSilences, capSilences, List.length_map]
    by_cases hlen : l.length > 10
    · rw [if_pos hlen, if_pos hlen,
        insertionSort_map_setDuration lenGE f (fun _ _ => Iff.rfl) l,
        ← List.map_take, insertionSort_map_setDuration startLE f (fun _ _ => Iff.rfl)]
    · rw [if_neg hlen, if_neg hlen]

theorem mergeSilences_duration_field_witness :
    mergeSilences exampleSilences 2 = (specRuns 2 ⟨2, 3, 1⟩ [⟨4, 6, 2⟩]).map collapseRun
    ∧ ∀ p ∈ specRuns 2 ⟨2, 3, 1⟩ [⟨4, 6, 2⟩], p.2 ≠ [] →
        (collapseRun p).duration < (collapseRun p).stop - (collapseRun p).start := by
  have h := mergeSilences_duration_field 2 ⟨2, 3, 1⟩ [⟨4, 6, 2⟩] exampleSilences_chain
    (by decide) (by intro x hx; fin_cases hx <;> norm_num)
  exact ⟨h.1, h.2.2.1⟩

end SilenceCut
